import Mathlib

/-!
Verification of the pitch-detection core of Muzic-Rocks
(`src/audio/pitch-detector.js`): the ACF2+ autocorrelation estimator
`autoCorrelate` and the temporal-smoothing tracker `detectPitch` /
`reset` / `setSensitivity` of class `PitchDetector`.

Samples, correlation values and frequencies are modelled as exact
rationals; the JavaScript number values that can flow out of
`autoCorrelate` (finite numbers, the infinities produced by division by
zero, and `NaN`) are modelled by the inductive type `JsNum`, with the
JavaScript comparison and arithmetic semantics (`NaN` compares false,
out-of-bounds array reads yield `undefined`, and the interpolation
arithmetic on `undefined` yields `NaN`, which fails the `if (a)`
truthiness test).
-/

set_option autoImplicit false

/-- A JavaScript number as it can appear in the pitch-detector data flow:
a finite value, one of the two infinities, or `NaN`. -/
inductive JsNum where
  | num : ℚ → JsNum
  | posInf : JsNum
  | negInf : JsNum
  | nan : JsNum
  deriving DecidableEq

namespace JsNum

/-- JavaScript `<` on numbers: `NaN` compares false with everything,
`-Infinity` is below every finite number, `Infinity` above. -/
def lt : JsNum → JsNum → Bool
  | num a, num b => a < b
  | num _, posInf => true
  | negInf, num _ => true
  | negInf, posInf => true
  | _, _ => false

/-- JavaScript `+` on numbers: `NaN` is absorbing, opposite infinities
give `NaN`, otherwise an infinity is absorbing. -/
def add : JsNum → JsNum → JsNum
  | num a, num b => num (a + b)
  | nan, _ => nan
  | _, nan => nan
  | posInf, negInf => nan
  | negInf, posInf => nan
  | posInf, _ => posInf
  | _, posInf => posInf
  | negInf, _ => negInf
  | _, negInf => negInf

/-- JavaScript `-` on numbers. -/
def sub : JsNum → JsNum → JsNum
  | num a, num b => num (a - b)
  | nan, _ => nan
  | _, nan => nan
  | posInf, posInf => nan
  | negInf, negInf => nan
  | posInf, _ => posInf
  | _, posInf => negInf
  | negInf, _ => negInf
  | _, negInf => posInf

/-- JavaScript `Math.abs`. -/
def abs : JsNum → JsNum
  | num a => num |a|
  | nan => nan
  | _ => posInf

/-- JavaScript division of a finite number by a finite number: division
by (positive) zero yields a signed infinity, `0 / 0` yields `NaN`. -/
def divQ (x y : ℚ) : JsNum :=
  if y = 0 then
    if 0 < x then posInf else if x < 0 then negInf else nan
  else
    num (x / y)

/-- JavaScript division of a number by a natural number (used for the
average `reduce(...) / this.historySize`): an infinity or `NaN`
survives, a finite value falls back to `divQ`. -/
def divNat (x : JsNum) (n : ℕ) : JsNum :=
  match x with
  | num a => divQ a n
  | nan => nan
  | posInf => posInf
  | negInf => negInf

/-- JavaScript `Array.prototype.reduce((a, b) => a + b)` with no initial
value: the first element seeds the accumulator. JavaScript throws a
`TypeError` on an empty array; that case is modelled as `nan` and is
unreachable in `detectPitch` whenever `historySize ≥ 1`, because the
reduce is guarded by `pitchHistory.length < historySize → return null`. -/
def reduceAdd : List JsNum → JsNum
  | [] => nan
  | x :: xs => xs.foldl add x

end JsNum

/-- Out-of-bounds JavaScript array read: `c[i]` is `undefined` (here
`none`) when `i` is negative or past the end. -/
def jsIndex (c : List ℚ) (i : ℤ) : Option ℚ :=
  if 0 ≤ i then c.get? i.toNat else none

/-- Sum of squares of the buffer, accumulated by the RMS loop of
`autoCorrelate` (`rms += val * val`). -/
def sumSq (b : List ℚ) : ℚ :=
  (b.map (fun v => v * v)).sum

/-- The loop `for (let i = 0; i < SIZE / 2; i++) if (|buffer[i]| < thres)
{ r1 = i; break; }`, run with `fuel` iterations remaining and loop
counter `i`; returns the default 0 when the counter leaves the scanned
range without a break. -/
def scanLeftAux (b : List ℚ) : ℕ → ℕ → ℕ
  | 0, _ => 0
  | fuel + 1, i =>
    if 2 * i < b.length then
      (if |b.getD i 0| < 1/5 then i else scanLeftAux b fuel (i + 1))
    else 0

/-- The bound `r1` of the center-clipping step: the first index
`i < SIZE / 2` whose sample has absolute value below the threshold 0.2,
defaulting to 0 when the scan finds none. `SIZE` iterations of fuel
dominate the at most `⌈SIZE / 2⌉` iterations of the loop. -/
def clipLeft (b : List ℚ) : ℕ := scanLeftAux b b.length 0

/-- The loop `for (let i = 1; i < SIZE / 2; i++) if (|buffer[SIZE - i]| <
thres) { r2 = SIZE - i; break; }`, in the style of `scanLeftAux`; the
default is the initial value `r2 = SIZE - 1`. -/
def scanRightAux (b : List ℚ) : ℕ → ℕ → ℕ
  | 0, _ => b.length - 1
  | fuel + 1, i =>
    if 2 * i < b.length then
      (if |b.getD (b.length - i) 0| < 1/5 then b.length - i else scanRightAux b fuel (i + 1))
    else b.length - 1

/-- The bound `r2` of the center-clipping step: the first index of the
form `SIZE - i`, for `i` counting up from 1 with `i < SIZE / 2`, whose
sample has absolute value below the threshold 0.2, defaulting to
`SIZE - 1` when the scan finds none. -/
def clipRight (b : List ℚ) : ℕ := scanRightAux b b.length 1

/-- The trimmed buffer `buffer.slice(r1, r2)` of the center-clipping
step. -/
def trimBuffer (b : List ℚ) : List ℚ :=
  (b.take (clipRight b)).drop (clipLeft b)

/-- The autocorrelation array
`c[i] = Σ_{j = 0}^{SIZE - i - 1} buffer[j] * buffer[j + i]`: entry `i`
is the dot product of the buffer with its suffix dropping `i` samples,
so `c` maps that dot product over the proper suffixes in order. -/
def autocorrArray (b : List ℚ) : List ℚ :=
  b.tails.dropLast.map (fun t => (List.zipWith (fun x y => x * y) b t).sum)

/-- The valley-skipping loop `let d = 0; while (c[d] > c[d + 1]) d++`.
When `d` reaches the last index, `c[d + 1]` is `undefined` in JavaScript
and the comparison is false, so the loop stops; structurally, the
recursion consumes the list from the front and `d` counts the steps. -/
def valleySkip : List ℚ → ℕ
  | x :: y :: rest => if y < x then valleySkip (y :: rest) + 1 else 0
  | _ => 0

/-- The body of the peak-search loop of `autoCorrelate`, walking the
remaining entries with their running index `i` and the accumulator
`(maxpos, maxval)`, updating on a strictly larger value
(`if (c[i] > maxval)`). -/
def peakAux : List ℚ → ℤ → ℤ × ℚ → ℤ × ℚ
  | [], _, acc => acc
  | x :: rest, i, acc => peakAux rest (i + 1) (if acc.2 < x then (i, x) else acc)

/-- The peak-search loop of `autoCorrelate`: starting from
`maxval = -1, maxpos = -1`, scan `c[i]` for `i` from `d` to the end and
record the position of the strict maximum (first occurrence wins). -/
def peakSearch (c : List ℚ) (d : ℕ) : ℤ × ℚ :=
  peakAux (c.drop d) (d : ℤ) (-1, -1)

namespace PitchDetector

/-- The ACF2+ algorithm `PitchDetector.autoCorrelate(buffer, sampleRate)`.
The silence gate `Math.sqrt(sumSq / SIZE) < 0.01` is expressed by the
equivalent square-free comparison `sumSq / SIZE < 1/10000`, valid since
the mean square is non-negative; the `0 < SIZE` conjunct reflects that
for an empty buffer the JavaScript RMS is `sqrt(0/0) = NaN` and
`NaN < 0.01` is false, so the gate does not fire. After the peak search,
`T0 = maxpos` may be `-1` or a boundary index, in which case one of
`c[T0-1]`, `c[T0]`, `c[T0+1]` is `undefined`, the interpolation
coefficient `a` is `NaN`, the truthiness test `if (a)` fails and `T0` is
left unrefined; when all three neighbours exist, `if (a)` fails exactly
for `a = 0`. The final `sampleRate / T0` is JavaScript division. -/
def autoCorrelate (buffer : List ℚ) (sampleRate : ℚ) : JsNum :=
  if 0 < buffer.length ∧ sumSq buffer / (buffer.length : ℚ) < 1/10000 then
    JsNum.num (-1)
  else
    let b := trimBuffer buffer
    let c := autocorrArray b
    let d := valleySkip c
    let maxpos := (peakSearch c d).1
    match jsIndex c (maxpos - 1), jsIndex c maxpos, jsIndex c (maxpos + 1) with
    | some x1, some x2, some x3 =>
        let a := (x1 + x3 - 2 * x2) / 2
        let bb := (x3 - x1) / 2
        if a = 0 then JsNum.divQ sampleRate (maxpos : ℚ)
        else JsNum.divQ sampleRate ((maxpos : ℚ) - bb / (2 * a))
    | _, _, _ => JsNum.divQ sampleRate (maxpos : ℚ)

/-- The mutable state of a `PitchDetector` instance (the `audioContext`
field is opaque glue and carries no behaviour). -/
structure State where
  sampleRate : ℚ
  pitchHistory : List JsNum
  historySize : ℕ
  pitchTolerance : ℚ
  deriving DecidableEq

/-- The constructor `new PitchDetector(audioContext, sampleRate)`:
empty history, `historySize = 3`, `pitchTolerance = 15`. -/
def init (sampleRate : ℚ) : State :=
  { sampleRate := sampleRate, pitchHistory := [], historySize := 3, pitchTolerance := 15 }

/-- The body of `detectPitch` from the point where the raw frequency has
been computed: range gate (`frequency < 60 || frequency > 1000` clears
the history and returns `null`), FIFO push with `shift()` eviction,
history-length gate, then mean and consistency check. Returns the new
state and the returned value (`none` models `null`). -/
def detectPitchRaw (s : State) (frequency : JsNum) : State × Option JsNum :=
  if JsNum.lt frequency (JsNum.num 60) || JsNum.lt (JsNum.num 1000) frequency then
    ({ s with pitchHistory := [] }, none)
  else
    let h0 := s.pitchHistory ++ [frequency]
    let h := if s.historySize < h0.length then h0.tail else h0
    let s' := { s with pitchHistory := h }
    if h.length < s.historySize then
      (s', none)
    else
      let avgFreq := JsNum.divNat (JsNum.reduceAdd h) s.historySize
      let isConsistent := h.all (fun freq => JsNum.lt (JsNum.abs (JsNum.sub freq avgFreq)) (JsNum.num s.pitchTolerance))
      (s', if isConsistent then some avgFreq else none)

/-- `PitchDetector.detectPitch(dataArray)`: run `autoCorrelate` at the
instance's sample rate, then smooth. -/
def detectPitch (s : State) (dataArray : List ℚ) : State × Option JsNum :=
  detectPitchRaw s (autoCorrelate dataArray s.sampleRate)

/-- `PitchDetector.reset()`: clear the history. -/
def reset (s : State) : State :=
  { s with pitchHistory := [] }

/-- The argument of `setSensitivity`: each field is present (`some`) or
`undefined` (`none`). -/
structure Settings where
  historySize : Option ℕ
  pitchTolerance : Option ℚ

/-- `PitchDetector.setSensitivity(settings)`: overwrite each field that
is present, then `reset()`. -/
def setSensitivity (s : State) (settings : Settings) : State :=
  let s1 := match settings.historySize with
    | some v => { s with historySize := v }
    | none => s
  let s2 := match settings.pitchTolerance with
    | some v => { s1 with pitchTolerance := v }
    | none => s1
  reset s2

end PitchDetector

section ClaimC1

/-- On the buffer `[1/2, 0, 1/2]` the center clipping keeps only the
middle sample. -/
theorem trimBuffer_half_zero_half : trimBuffer [1/2, 0, 1/2] = [0] := by
  norm_num [trimBuffer, clipLeft, clipRight, scanLeftAux, scanRightAux, abs_lt]

/-- C1: the claim demands that when the peak search leaves `T0` at a
boundary of the correlation array, or the trimmed buffer is degenerate,
`autoCorrelate` returns the no-pitch value rather than dividing by zero
or producing a non-finite result. The code has no such guard: on the
non-silent buffer `[1/2, 0, 1/2]` the trim keeps only the zero middle
sample, the correlation array is `[0]`, the peak lands at `T0 = 0`, the
interpolation is skipped because `c[-1]` is `undefined`, and the code
returns `sampleRate / 0 = Infinity` — a non-finite value distinct from
the `-1` no-pitch sentinel. -/
theorem autoCorrelate_boundary_no_guard :
    PitchDetector.autoCorrelate [1/2, 0, 1/2] 44100 = JsNum.posInf ∧
    PitchDetector.autoCorrelate [1/2, 0, 1/2] 44100 ≠ JsNum.num (-1) := by
  have h : PitchDetector.autoCorrelate [1/2, 0, 1/2] 44100 = JsNum.posInf := by
    rw [PitchDetector.autoCorrelate, if_neg]
    · rw [trimBuffer_half_zero_half]
      norm_num [autocorrArray, valleySkip, peakSearch, peakAux, jsIndex, JsNum.divQ]
    · norm_num [sumSq]
  exact ⟨h, by rw [h]; intro hEq; exact JsNum.noConfusion hEq⟩

end ClaimC1

section ClaimC6

/-- The sum of squared samples is non-negative. -/
theorem sumSq_nonneg (b : List ℚ) : 0 ≤ sumSq b := by
  refine List.sum_nonneg ?_
  intro x hx
  obtain ⟨v, _, rfl⟩ := List.mem_map.mp hx
  exact mul_self_nonneg v

/-- C6: for every buffer whose root-mean-square amplitude over the full
buffer is strictly below 0.01, `autoCorrelate` returns the no-pitch
value `-1` immediately via the silence gate. -/
theorem autoCorrelate_silence_gate (b : List ℚ) (sr : ℚ) (hlen : 0 < b.length)
    (hrms : Real.sqrt ((sumSq b : ℝ) / (b.length : ℝ)) < 1/100) :
    PitchDetector.autoCorrelate b sr = JsNum.num (-1) := by
  rw [PitchDetector.autoCorrelate, if_pos]
  refine ⟨hlen, ?_⟩
  have h2 : ((sumSq b : ℝ) / (b.length : ℝ)) < (1/100 : ℝ) ^ 2 :=
    (Real.sqrt_lt' (by norm_num)).mp hrms
  have h3 : ((sumSq b / (b.length : ℚ) : ℚ) : ℝ) < ((1/10000 : ℚ) : ℝ) := by
    push_cast
    norm_num at h2 ⊢
    exact h2
  exact_mod_cast h3

/-- The silence gate fires on the concrete quiet buffer `[1/1000]`. -/
theorem autoCorrelate_silence_gate_witness :
    PitchDetector.autoCorrelate [1/1000] 44100 = JsNum.num (-1) := by
  refine autoCorrelate_silence_gate [1/1000] 44100 (by norm_num) ?_
  have hs : sumSq [(1 : ℚ)/1000] = 1/1000000 := by norm_num [sumSq]
  rw [hs]
  rw [Real.sqrt_lt' (by norm_num)]
  norm_num

end ClaimC6

section ClaimC2

/-- If some scanned index holds a sample below the clipping threshold,
the left scan stops at the first one. -/
theorem scanLeftAux_found (b : List ℚ) (fuel i k : ℕ) (hik : i ≤ k) (hfuel : k < i + fuel)
    (h2 : 2 * k < b.length) (hbelow : |b.getD k 0| < 1/5)
    (hmin : ∀ j, i ≤ j → j < k → ¬(|b.getD j 0| < 1/5)) :
    scanLeftAux b fuel i = k := by
  induction fuel generalizing i with
  | zero => omega
  | succ fuel ih =>
    rw [scanLeftAux]
    rcases eq_or_lt_of_le hik with rfl | hik'
    · rw [if_pos h2, if_pos hbelow]
    · have hi2 : 2 * i < b.length := by omega
      rw [if_pos hi2, if_neg (hmin i le_rfl hik')]
      exact ih (i + 1) hik' (by omega) (fun j hj hjk => hmin j (by omega) hjk)

/-- If no scanned index holds a sample below the clipping threshold,
the left scan returns the default 0. -/
theorem scanLeftAux_none (b : List ℚ) (fuel i : ℕ)
    (hnone : ∀ j, i ≤ j → 2 * j < b.length → ¬(|b.getD j 0| < 1/5)) :
    scanLeftAux b fuel i = 0 := by
  induction fuel generalizing i with
  | zero => rfl
  | succ fuel ih =>
    rw [scanLeftAux]
    by_cases hi2 : 2 * i < b.length
    · rw [if_pos hi2, if_neg (hnone i le_rfl hi2)]
      exact ih (i + 1) (fun j hj => hnone j (by omega))
    · rw [if_neg hi2]

/-- If some scanned index `SIZE - k` holds a sample below the clipping
threshold, the right scan stops at the first one. -/
theorem scanRightAux_found (b : List ℚ) (fuel i k : ℕ) (hik : i ≤ k) (hfuel : k < i + fuel)
    (h2 : 2 * k < b.length) (hbelow : |b.getD (b.length - k) 0| < 1/5)
    (hmin : ∀ j, i ≤ j → j < k → ¬(|b.getD (b.length - j) 0| < 1/5)) :
    scanRightAux b fuel i = b.length - k := by
  induction fuel generalizing i with
  | zero => omega
  | succ fuel ih =>
    rw [scanRightAux]
    rcases eq_or_lt_of_le hik with rfl | hik'
    · rw [if_pos h2, if_pos hbelow]
    · have hi2 : 2 * i < b.length := by omega
      rw [if_pos hi2, if_neg (hmin i le_rfl hik')]
      exact ih (i + 1) hik' (by omega) (fun j hj hjk => hmin j (by omega) hjk)

/-- If no scanned index holds a sample below the clipping threshold,
the right scan returns the default `SIZE - 1`. -/
theorem scanRightAux_none (b : List ℚ) (fuel i : ℕ)
    (hnone : ∀ j, i ≤ j → 2 * j < b.length → ¬(|b.getD (b.length - j) 0| < 1/5)) :
    scanRightAux b fuel i = b.length - 1 := by
  induction fuel generalizing i with
  | zero => rfl
  | succ fuel ih =>
    rw [scanRightAux]
    by_cases hi2 : 2 * i < b.length
    · rw [if_pos hi2, if_neg (hnone i le_rfl hi2)]
      exact ih (i + 1) (fun j hj => hnone j (by omega))
    · rw [if_neg hi2]

end ClaimC2

section ClaimC2thm

/-- C2 (amended): in the trimming step, `left` is the first index `i` in
the scanned range `i < SIZE / 2` whose sample has absolute value below
the threshold 0.2 (default 0 when that range holds none), `right` is the
first index of the form `SIZE - i`, for `i` counting up from 1 within
`i < SIZE / 2`, whose sample lies below the threshold (default `SIZE - 1`
— not the full buffer length — when that range holds none, so the final
sample is dropped in the default case), and subsequent processing is
restricted to the sub-buffer `[left, right)`. -/
theorem trim_bounds_characterization (b : List ℚ) :
    (∀ i, 2 * i < b.length → |b.getD i 0| < 1/5 →
      (∀ j, j < i → ¬(|b.getD j 0| < 1/5)) → clipLeft b = i) ∧
    ((∀ i, 2 * i < b.length → ¬(|b.getD i 0| < 1/5)) → clipLeft b = 0) ∧
    (∀ i, 1 ≤ i → 2 * i < b.length → |b.getD (b.length - i) 0| < 1/5 →
      (∀ j, 1 ≤ j → j < i → ¬(|b.getD (b.length - j) 0| < 1/5)) →
      clipRight b = b.length - i) ∧
    ((∀ i, 1 ≤ i → 2 * i < b.length → ¬(|b.getD (b.length - i) 0| < 1/5)) →
      clipRight b = b.length - 1) ∧
    (∀ j, (trimBuffer b)[j]? =
      if clipLeft b + j < clipRight b then b[clipLeft b + j]? else none) := by
  refine ⟨?_, ?_, ?_, ?_, ?_⟩
  · intro i h2 hb hmin
    exact scanLeftAux_found b b.length 0 i (Nat.zero_le i) (by omega) h2 hb
      (fun j _ hj => hmin j hj)
  · intro hnone
    exact scanLeftAux_none b b.length 0 (fun j _ => hnone j)
  · intro i h1 h2 hb hmin
    exact scanRightAux_found b b.length 1 i h1 (by omega) h2 hb hmin
  · intro hnone
    exact scanRightAux_none b b.length 1 (fun j hj => hnone j hj)
  · intro j
    rw [trimBuffer, List.getElem?_drop, List.getElem?_take]

/-- C2 counterexample: on the non-silent buffer `[1/2, 1/2]` no sample
lies below the clipping threshold, yet the trimmed buffer is not the
whole buffer: the default right bound is `SIZE - 1 = 1`, so the final
sample is dropped, refuting the claim that the default right bound is
the full buffer length. -/
theorem trim_default_drops_last_sample :
    (∀ v ∈ [(1 : ℚ)/2, 1/2], ¬(|v| < 1/5)) ∧
    ¬(Real.sqrt ((sumSq [(1 : ℚ)/2, 1/2] : ℝ) / (([(1 : ℚ)/2, 1/2].length : ℕ) : ℝ)) < 1/100) ∧
    trimBuffer [(1 : ℚ)/2, 1/2] ≠ [(1 : ℚ)/2, 1/2] := by
  refine ⟨?_, ?_, ?_⟩
  · intro v hv
    rcases List.mem_cons.mp hv with rfl | hv
    · rw [abs_lt]; norm_num
    · rcases List.mem_cons.mp hv with rfl | hv
      · rw [abs_lt]; norm_num
      · exact absurd hv (List.not_mem_nil v)
  · have hs : sumSq [(1 : ℚ)/2, 1/2] = 1/2 := by norm_num [sumSq]
    rw [hs]
    rw [Real.sqrt_lt' (by norm_num)]
    norm_num
  · have ht : trimBuffer [(1 : ℚ)/2, 1/2] = [1/2] := by
      norm_num [trimBuffer, clipLeft, clipRight, scanLeftAux, scanRightAux, abs_lt]
    rw [ht]
    intro hEq
    have hlen := congrArg List.length hEq
    simp at hlen

/-- The trim characterization applied concretely: in `[1, 0, 1, 0, 0, 1]`
the first below-threshold sample in the scanned half is at index 1, the
first below-threshold sample from the end within the scanned range is at
index `6 - 2 = 4`. -/
theorem trim_bounds_characterization_witness :
    clipLeft [(1 : ℚ), 0, 1, 0, 0, 1] = 1 ∧
    clipRight [(1 : ℚ), 0, 1, 0, 0, 1] = 4 := by
  constructor
  · refine (trim_bounds_characterization [(1 : ℚ), 0, 1, 0, 0, 1]).1 1 (by norm_num)
      (by norm_num) ?_
    intro j hj
    have hj0 : j = 0 := by omega
    subst hj0
    norm_num [abs_lt]
  · refine (trim_bounds_characterization [(1 : ℚ), 0, 1, 0, 0, 1]).2.2.1 2 (by norm_num)
      (by norm_num) (by norm_num) ?_
    intro j h1 hj
    have hj1 : j = 1 := by omega
    subst hj1
    norm_num [abs_lt]

end ClaimC2thm

section ClaimC10

/-- C10: for every correlation array of length at least 1, the
valley-skipping loop terminates at an index at most `M - 1`; it exits at
the first index whose successor value does not strictly decrease, i.e.
every step it actually took was descending, and if the exit index still
has a successor inside the array then the correlation does not decrease
there (when the correlation decreases throughout, the loop is stopped
only by the missing `c[M]`, at the last valid index). -/
theorem valleySkip_spec (c : List ℚ) (h : 1 ≤ c.length) :
    valleySkip c ≤ c.length - 1 ∧
    (∀ e, e < valleySkip c → c.getD (e + 1) 0 < c.getD e 0) ∧
    (valleySkip c + 1 < c.length → ¬(c.getD (valleySkip c + 1) 0 < c.getD (valleySkip c) 0)) := by
  induction c with
  | nil => simp at h
  | cons x xs ih =>
    match xs with
    | [] =>
      refine ⟨by simp [valleySkip], ?_, ?_⟩
      · intro e he
        simp [valleySkip] at he
      · intro hlt
        simp [valleySkip] at hlt
    | y :: rest =>
      rcases ih (by simp) with ⟨ihb, ihm, ihe⟩
      by_cases hxy : y < x
      · have hv : valleySkip (x :: y :: rest) = valleySkip (y :: rest) + 1 := by
          rw [valleySkip, if_pos hxy]
        refine ⟨?_, ?_, ?_⟩
        · rw [hv]
          simp only [List.length_cons] at ihb ⊢
          omega
        · intro e he
          rw [hv] at he
          match e with
          | 0 => simpa using hxy
          | e + 1 =>
            have := ihm e (by omega)
            simpa using this
        · intro hlen
          rw [hv] at hlen ⊢
          simp only [List.length_cons] at hlen
          have := ihe (by simpa using by omega)
          simpa using this
      · have hv : valleySkip (x :: y :: rest) = 0 := by
          rw [valleySkip, if_neg hxy]
        refine ⟨by omega, ?_, ?_⟩
        · intro e he
          rw [hv] at he
          omega
        · intro _
          rw [hv]
          simpa using hxy

/-- The valley-skip bound and exit conditions at the concrete
correlation array `[3, 2, 5]`: the loop advances once and stops at
index 1, where the next value increases. -/
theorem valleySkip_spec_witness :
    valleySkip [(3 : ℚ), 2, 5] ≤ 2 ∧
    ¬(([(3 : ℚ), 2, 5].getD (valleySkip [(3 : ℚ), 2, 5] + 1) 0) <
      ([(3 : ℚ), 2, 5].getD (valleySkip [(3 : ℚ), 2, 5]) 0)) := by
  have h := valleySkip_spec [(3 : ℚ), 2, 5] (by norm_num)
  exact ⟨h.1, h.2.2 (by norm_num [valleySkip])⟩

end ClaimC10

/-- The range gate's acceptance test: a raw estimate passes when neither
`frequency < 60` nor `frequency > 1000` holds under JavaScript
comparison (so the `-1` no-pitch sentinel and both infinities are
rejected, while `NaN` — unreachable from `autoCorrelate` at a nonzero
sample rate — compares false on both sides). -/
def acceptedRaw (f : JsNum) : Bool :=
  !(JsNum.lt f (JsNum.num 60) || JsNum.lt (JsNum.num 1000) f)

/-- Length of the longest prefix of accepted raw estimates. -/
def leadRun : List JsNum → ℕ
  | [] => 0
  | f :: fs => if acceptedRaw f then leadRun fs + 1 else 0

/-- Length of the longest suffix of accepted raw estimates: the number
of consecutive in-range readings received most recently. -/
def trailingRun (rs : List JsNum) : ℕ := leadRun rs.reverse

/-- The detector state after a sequence of `detectPitch` calls whose raw
estimates are `rs`, in order. -/
def observeSeq (s : PitchDetector.State) (rs : List JsNum) : PitchDetector.State :=
  rs.foldl (fun t f => (PitchDetector.detectPitchRaw t f).1) s

section TrackerLemmas

/-- The acceptance test spelled out on the gate condition. -/
theorem acceptedRaw_false_iff (f : JsNum) :
    acceptedRaw f = false ↔
    (JsNum.lt f (JsNum.num 60) || JsNum.lt (JsNum.num 1000) f) = true := by
  rw [acceptedRaw, Bool.not_eq_false']

/-- The acceptance test spelled out on the gate condition, accepted case. -/
theorem acceptedRaw_true_iff (f : JsNum) :
    acceptedRaw f = true ↔
    (JsNum.lt f (JsNum.num 60) || JsNum.lt (JsNum.num 1000) f) = false := by
  rw [acceptedRaw, Bool.not_eq_true']

/-- A rejected raw estimate clears the history and yields `null`. -/
theorem detectPitchRaw_rejected (s : PitchDetector.State) (f : JsNum)
    (h : acceptedRaw f = false) :
    PitchDetector.detectPitchRaw s f = ({ s with pitchHistory := [] }, none) := by
  rw [PitchDetector.detectPitchRaw, if_pos ((acceptedRaw_false_iff f).mp h)]

/-- State after an accepted raw estimate: push, then evict the oldest
entry when the capacity is exceeded. -/
theorem detectPitchRaw_accepted_fst (s : PitchDetector.State) (f : JsNum)
    (h : acceptedRaw f = true) :
    (PitchDetector.detectPitchRaw s f).1 =
      { s with pitchHistory :=
          if s.historySize < (s.pitchHistory ++ [f]).length
          then (s.pitchHistory ++ [f]).tail else s.pitchHistory ++ [f] } := by
  have hg := (acceptedRaw_true_iff f).mp h
  rw [PitchDetector.detectPitchRaw, if_neg (by rw [hg]; exact Bool.false_ne_true)]
  simp only [apply_ite Prod.fst, ite_self]

/-- Return value after an accepted raw estimate: `null` while the
history is short, otherwise the average when all entries sit within the
tolerance of it. -/
theorem detectPitchRaw_accepted_snd (s : PitchDetector.State) (f : JsNum)
    (h : acceptedRaw f = true) :
    (PitchDetector.detectPitchRaw s f).2 =
      (let h1 := if s.historySize < (s.pitchHistory ++ [f]).length
                 then (s.pitchHistory ++ [f]).tail else s.pitchHistory ++ [f]
       if h1.length < s.historySize then none
       else
         let avgFreq := JsNum.divNat (JsNum.reduceAdd h1) s.historySize
         if h1.all (fun freq => JsNum.lt (JsNum.abs (JsNum.sub freq avgFreq)) (JsNum.num s.pitchTolerance))
         then some avgFreq else none) := by
  have hg := (acceptedRaw_true_iff f).mp h
  rw [PitchDetector.detectPitchRaw, if_neg (by rw [hg]; exact Bool.false_ne_true)]
  simp only [apply_ite Prod.snd]

/-- A `detectPitch` step never changes the configuration fields. -/
theorem detectPitchRaw_config (s : PitchDetector.State) (f : JsNum) :
    (PitchDetector.detectPitchRaw s f).1.historySize = s.historySize ∧
    (PitchDetector.detectPitchRaw s f).1.pitchTolerance = s.pitchTolerance ∧
    (PitchDetector.detectPitchRaw s f).1.sampleRate = s.sampleRate := by
  cases h : acceptedRaw f with
  | false => rw [detectPitchRaw_rejected s f h]; exact ⟨rfl, rfl, rfl⟩
  | true => rw [detectPitchRaw_accepted_fst s f h]; exact ⟨rfl, rfl, rfl⟩

/-- One step grows the history length by at most one. -/
theorem detectPitchRaw_len_le (s : PitchDetector.State) (f : JsNum) :
    (PitchDetector.detectPitchRaw s f).1.pitchHistory.length ≤ s.pitchHistory.length + 1 := by
  cases h : acceptedRaw f with
  | false => rw [detectPitchRaw_rejected s f h]; simp
  | true =>
    rw [detectPitchRaw_accepted_fst s f h]
    show (if s.historySize < (s.pitchHistory ++ [f]).length
        then (s.pitchHistory ++ [f]).tail else s.pitchHistory ++ [f]).length ≤
        s.pitchHistory.length + 1
    split <;> simp

/-- A non-null return needs an accepted estimate and a full history. -/
theorem detectPitchRaw_out_ne_none (s : PitchDetector.State) (f : JsNum)
    (hout : (PitchDetector.detectPitchRaw s f).2 ≠ none) :
    acceptedRaw f = true ∧
    s.historySize ≤ (PitchDetector.detectPitchRaw s f).1.pitchHistory.length := by
  cases h : acceptedRaw f with
  | false => rw [detectPitchRaw_rejected s f h] at hout; exact absurd rfl hout
  | true =>
    refine ⟨rfl, ?_⟩
    rw [detectPitchRaw_accepted_snd s f h] at hout
    rw [detectPitchRaw_accepted_fst s f h]
    show s.historySize ≤ (if s.historySize < (s.pitchHistory ++ [f]).length
        then (s.pitchHistory ++ [f]).tail else s.pitchHistory ++ [f]).length
    by_cases hfull : (if s.historySize < (s.pitchHistory ++ [f]).length
        then (s.pitchHistory ++ [f]).tail else s.pitchHistory ++ [f]).length < s.historySize
    · rw [if_pos hfull] at hout
      exact absurd rfl hout
    · omega

/-- With a positive capacity, an accepted estimate lands in the history. -/
theorem detectPitchRaw_mem (s : PitchDetector.State) (f : JsNum)
    (h : acceptedRaw f = true) (hhs : 1 ≤ s.historySize) :
    f ∈ (PitchDetector.detectPitchRaw s f).1.pitchHistory := by
  rw [detectPitchRaw_accepted_fst s f h]
  show f ∈ (if s.historySize < (s.pitchHistory ++ [f]).length
      then (s.pitchHistory ++ [f]).tail else s.pitchHistory ++ [f])
  match hist : s.pitchHistory with
  | [] =>
    have hn : ¬(s.historySize < (([] : List JsNum) ++ [f]).length) := by
      simp only [List.nil_append, List.length_singleton]
      omega
    rw [if_neg hn]
    simp
  | p :: ps =>
    by_cases hlen : s.historySize < ((p :: ps) ++ [f]).length
    · rw [if_pos hlen]
      simp
    · rw [if_neg hlen]
      simp

/-- `observeSeq` over an added final estimate is one more step. -/
theorem observeSeq_append (s : PitchDetector.State) (rs : List JsNum) (f : JsNum) :
    observeSeq s (rs ++ [f]) = (PitchDetector.detectPitchRaw (observeSeq s rs) f).1 := by
  simp [observeSeq, List.foldl_append]

/-- The trailing accepted run after one more estimate. -/
theorem trailingRun_append (rs : List JsNum) (f : JsNum) :
    trailingRun (rs ++ [f]) = if acceptedRaw f then trailingRun rs + 1 else 0 := by
  simp [trailingRun, List.reverse_append, leadRun]

/-- A whole observation sequence never changes the configuration. -/
theorem observeSeq_config (s : PitchDetector.State) (rs : List JsNum) :
    (observeSeq s rs).historySize = s.historySize ∧
    (observeSeq s rs).pitchTolerance = s.pitchTolerance ∧
    (observeSeq s rs).sampleRate = s.sampleRate := by
  induction rs using List.reverseRecOn with
  | nil => exact ⟨rfl, rfl, rfl⟩
  | append_singleton rs f ih =>
    rw [observeSeq_append]
    rcases detectPitchRaw_config (observeSeq s rs) f with ⟨h1, h2, h3⟩
    rw [h1, h2, h3]
    exact ih

/-- Starting from an empty history, the history never grows past the
number of trailing consecutive accepted estimates. -/
theorem observeSeq_len_le_trailingRun (s : PitchDetector.State)
    (hempty : s.pitchHistory = []) (rs : List JsNum) :
    (observeSeq s rs).pitchHistory.length ≤ trailingRun rs := by
  induction rs using List.reverseRecOn with
  | nil => simp [observeSeq, hempty, trailingRun, leadRun]
  | append_singleton rs f ih =>
    rw [observeSeq_append, trailingRun_append]
    cases h : acceptedRaw f with
    | false => rw [detectPitchRaw_rejected _ f h]; simp
    | true =>
      have hle := detectPitchRaw_len_le (observeSeq s rs) f
      simp only [if_true]
      omega

end TrackerLemmas

section ClaimC3

/-- C3: starting from an empty history, no `detectPitch` call returns a
non-null value unless the `historySize` most recent raw estimates
(including the current one) were all consecutive in-range readings —
the trailing accepted run must reach `historySize`; and after any run of
`historySize - 1` in-range readings, a single rejected reading empties
the history, so stabilization must re-accumulate from zero. -/
theorem stabilized_requires_consecutive (s : PitchDetector.State)
    (hempty : s.pitchHistory = []) (rs : List JsNum) (f : JsNum) :
    ((PitchDetector.detectPitchRaw (observeSeq s rs) f).2 ≠ none →
      s.historySize ≤ trailingRun (rs ++ [f])) ∧
    (∀ goods bad, goods.length = s.historySize - 1 →
      (∀ g ∈ goods, acceptedRaw g = true) → acceptedRaw bad = false →
      (observeSeq s (goods ++ [bad])).pitchHistory = []) := by
  constructor
  · intro hout
    rcases detectPitchRaw_out_ne_none _ _ hout with ⟨hacc, hge⟩
    have hlen' := detectPitchRaw_len_le (observeSeq s rs) f
    have htr := observeSeq_len_le_trailingRun s hempty rs
    have hcfg := (observeSeq_config s rs).1
    rw [trailingRun_append, if_pos hacc]
    omega
  · intro goods bad _ _ hbad
    rw [observeSeq_append, detectPitchRaw_rejected _ bad hbad]

/-- The reset part of the consecutive-readings claim applied concretely:
two in-range readings (one short of the default `historySize = 3`)
followed by the out-of-range reading 30 Hz leave an empty history. -/
theorem stabilized_requires_consecutive_witness :
    (observeSeq (PitchDetector.init 48000)
      ([JsNum.num 220, JsNum.num 221] ++ [JsNum.num 30])).pitchHistory = [] :=
  (stabilized_requires_consecutive (PitchDetector.init 48000) rfl [] (JsNum.num 0)).2
    [JsNum.num 220, JsNum.num 221] (JsNum.num 30) (by decide) (by decide) (by decide)

end ClaimC3

section ClaimC5

/-- C5: the range gate clears the whole history and returns `null`
exactly when the raw estimate is the `-1` no-pitch sentinel or lies
strictly below 60 Hz or strictly above 1000 Hz under JavaScript
comparison; an estimate of exactly 60 Hz or exactly 1000 Hz is instead
appended to the history. -/
theorem range_gate_iff (s : PitchDetector.State) (f : JsNum) (hhs : 1 ≤ s.historySize) :
    (((PitchDetector.detectPitchRaw s f).1.pitchHistory = [] ∧
      (PitchDetector.detectPitchRaw s f).2 = none) ↔
      (f = JsNum.num (-1) ∨ JsNum.lt f (JsNum.num 60) = true ∨
        JsNum.lt (JsNum.num 1000) f = true)) ∧
    JsNum.num 60 ∈ (PitchDetector.detectPitchRaw s (JsNum.num 60)).1.pitchHistory ∧
    JsNum.num 1000 ∈ (PitchDetector.detectPitchRaw s (JsNum.num 1000)).1.pitchHistory := by
  refine ⟨⟨?_, ?_⟩, detectPitchRaw_mem s _ (by decide) hhs,
    detectPitchRaw_mem s _ (by decide) hhs⟩
  · rintro ⟨hh, -⟩
    cases hacc : acceptedRaw f with
    | true =>
      have hmem := detectPitchRaw_mem s f hacc hhs
      rw [hh] at hmem
      exact absurd hmem (List.not_mem_nil f)
    | false =>
      have hor : JsNum.lt f (JsNum.num 60) = true ∨ JsNum.lt (JsNum.num 1000) f = true := by
        have hg := (acceptedRaw_false_iff f).mp hacc
        simpa using hg
      rcases hor with h60 | h1000
      · exact Or.inr (Or.inl h60)
      · exact Or.inr (Or.inr h1000)
  · intro hd
    have hacc : acceptedRaw f = false := by
      rcases hd with rfl | h60 | h1000
      · decide
      · rw [acceptedRaw, h60]
        rfl
      · rw [acceptedRaw, h1000, Bool.or_true]
        rfl
    rw [detectPitchRaw_rejected s f hacc]
    exact ⟨rfl, rfl⟩

/-- The range gate claim applied to the boundary values at the default
configuration: 60 Hz and 1000 Hz enter the history. -/
theorem range_gate_iff_witness :
    JsNum.num 60 ∈ (PitchDetector.detectPitchRaw (PitchDetector.init 48000)
      (JsNum.num 60)).1.pitchHistory ∧
    JsNum.num 1000 ∈ (PitchDetector.detectPitchRaw (PitchDetector.init 48000)
      (JsNum.num 1000)).1.pitchHistory :=
  ⟨(range_gate_iff (PitchDetector.init 48000) (JsNum.num 60) (by decide)).2.1,
   (range_gate_iff (PitchDetector.init 48000) (JsNum.num 1000) (by decide)).2.2⟩

end ClaimC5

section ClaimC8

/-- The trailing accepted run never exceeds the total number of calls. -/
theorem leadRun_le_length (rs : List JsNum) : leadRun rs ≤ rs.length := by
  induction rs with
  | nil => exact le_rfl
  | cons f fs ih =>
    rw [leadRun]
    split
    · simpa using ih
    · simp

/-- C8: `reset()` empties the history and changes no other field;
`setSensitivity(settings)` overwrites exactly the fields present in
`settings`, leaves absent fields unchanged, empties the history, and
afterwards a non-null output again needs at least `historySize`
observations. -/
theorem reset_setSensitivity_frame (s : PitchDetector.State)
    (settings : PitchDetector.Settings) :
    (PitchDetector.reset s).pitchHistory = [] ∧
    (PitchDetector.reset s).sampleRate = s.sampleRate ∧
    (PitchDetector.reset s).historySize = s.historySize ∧
    (PitchDetector.reset s).pitchTolerance = s.pitchTolerance ∧
    (PitchDetector.setSensitivity s settings).pitchHistory = [] ∧
    (PitchDetector.setSensitivity s settings).sampleRate = s.sampleRate ∧
    (PitchDetector.setSensitivity s settings).historySize =
      settings.historySize.getD s.historySize ∧
    (PitchDetector.setSensitivity s settings).pitchTolerance =
      settings.pitchTolerance.getD s.pitchTolerance ∧
    (∀ rs f,
      (PitchDetector.detectPitchRaw
        (observeSeq (PitchDetector.setSensitivity s settings) rs) f).2 ≠ none →
      (PitchDetector.setSensitivity s settings).historySize ≤ rs.length + 1) := by
  obtain ⟨hso, pto⟩ := settings
  refine ⟨rfl, rfl, rfl, rfl, ?_, ?_, ?_, ?_, ?_⟩
  · cases hso <;> cases pto <;> rfl
  · cases hso <;> cases pto <;> rfl
  · cases hso <;> cases pto <;> rfl
  · cases hso <;> cases pto <;> rfl
  · intro rs f hout
    rcases detectPitchRaw_out_ne_none _ _ hout with ⟨-, hge⟩
    have hlen' := detectPitchRaw_len_le
      (observeSeq (PitchDetector.setSensitivity s ⟨hso, pto⟩) rs) f
    have htr := observeSeq_len_le_trailingRun
      (PitchDetector.setSensitivity s ⟨hso, pto⟩) (by cases hso <;> cases pto <;> rfl) rs
    have hrun : trailingRun rs ≤ rs.length := by
      rw [trailingRun]
      calc leadRun rs.reverse ≤ rs.reverse.length := leadRun_le_length rs.reverse
        _ = rs.length := List.length_reverse rs
    have hcfg := (observeSeq_config (PitchDetector.setSensitivity s ⟨hso, pto⟩) rs).1
    omega

/-- The frame conditions of `setSensitivity` applied concretely, with a
one-entry capacity: after the configuration change, one observation
already suffices for a non-null output, matching the bound. -/
theorem reset_setSensitivity_frame_witness :
    (PitchDetector.setSensitivity (PitchDetector.init 48000)
      ⟨some 1, none⟩).pitchHistory = [] ∧
    (PitchDetector.setSensitivity (PitchDetector.init 48000)
      ⟨some 1, none⟩).historySize ≤ ([] : List JsNum).length + 1 := by
  refine ⟨(reset_setSensitivity_frame (PitchDetector.init 48000) ⟨some 1, none⟩).2.2.2.2.1, ?_⟩
  refine (reset_setSensitivity_frame (PitchDetector.init 48000)
    ⟨some 1, none⟩).2.2.2.2.2.2.2.2 [] (JsNum.num 220) ?_
  show (PitchDetector.detectPitchRaw
    (PitchDetector.setSensitivity (PitchDetector.init 48000) ⟨some 1, none⟩)
    (JsNum.num 220)).2 ≠ none
  have hev : (PitchDetector.detectPitchRaw
      (PitchDetector.setSensitivity (PitchDetector.init 48000) ⟨some 1, none⟩)
      (JsNum.num 220)).2 = some (JsNum.num 220) := by
    norm_num [PitchDetector.detectPitchRaw, PitchDetector.setSensitivity,
      PitchDetector.reset, PitchDetector.init, JsNum.lt, JsNum.sub, JsNum.abs,
      JsNum.divNat, JsNum.divQ, JsNum.reduceAdd]
  rw [hev]
  exact Option.some_ne_none _

end ClaimC8

section HistoryInvariant

/-- The tracker's history invariant: the history never exceeds the
configured capacity, and every stored entry is a finite frequency in the
accepted musical range `[60, 1000]`. -/
def HistoryInv (s : PitchDetector.State) : Prop :=
  s.pitchHistory.length ≤ s.historySize ∧
  ∀ g ∈ s.pitchHistory, ∃ q : ℚ, g = JsNum.num q ∧ 60 ≤ q ∧ q ≤ 1000

/-- At a nonzero sample rate `autoCorrelate` cannot return `NaN`: the
only `NaN`-producing division is `0 / 0`, and the dividend is the sample
rate. -/
theorem autoCorrelate_ne_nan (b : List ℚ) (sr : ℚ) (hsr : sr ≠ 0) :
    PitchDetector.autoCorrelate b sr ≠ JsNum.nan := by
  have hdiv : ∀ y : ℚ, JsNum.divQ sr y ≠ JsNum.nan := by
    intro y
    rw [JsNum.divQ]
    split
    · split_ifs with h1 h2
      · exact fun hEq => JsNum.noConfusion hEq
      · exact fun hEq => JsNum.noConfusion hEq
      · exact absurd (le_antisymm (not_lt.mp h1) (not_lt.mp h2)) hsr
    · exact fun hEq => JsNum.noConfusion hEq
  rw [PitchDetector.autoCorrelate]
  split
  · exact fun hEq => JsNum.noConfusion hEq
  · dsimp only
    split
    · split
      · exact hdiv _
      · exact hdiv _
    · exact hdiv _

/-- An accepted raw estimate (other than the unreachable `NaN`) is a
finite frequency in `[60, 1000]`. -/
theorem acceptedRaw_range (f : JsNum) (hacc : acceptedRaw f = true) (hf : f ≠ JsNum.nan) :
    ∃ q : ℚ, f = JsNum.num q ∧ 60 ≤ q ∧ q ≤ 1000 := by
  cases f with
  | num q =>
    have hg := (acceptedRaw_true_iff (JsNum.num q)).mp hacc
    rw [Bool.or_eq_false_iff] at hg
    obtain ⟨h60, h1000⟩ := hg
    refine ⟨q, rfl, ?_, ?_⟩
    · have : ¬(q < 60) := by simpa [JsNum.lt] using h60
      linarith
    · have : ¬(1000 < q) := by simpa [JsNum.lt] using h1000
      linarith
  | posInf =>
    rw [acceptedRaw] at hacc
    simp [JsNum.lt] at hacc
  | negInf =>
    rw [acceptedRaw] at hacc
    simp [JsNum.lt] at hacc
  | nan => exact absurd rfl hf

/-- One `detectPitch` step preserves the history invariant, for any raw
estimate other than `NaN`. -/
theorem histInv_step (s : PitchDetector.State) (f : JsNum) (hf : f ≠ JsNum.nan)
    (hInv : HistoryInv s) : HistoryInv (PitchDetector.detectPitchRaw s f).1 := by
  obtain ⟨hlen, hmem⟩ := hInv
  cases hacc : acceptedRaw f with
  | false =>
    rw [detectPitchRaw_rejected s f hacc]
    exact ⟨Nat.zero_le _, by intro g hg; exact absurd hg (List.not_mem_nil g)⟩
  | true =>
    rw [detectPitchRaw_accepted_fst s f hacc]
    constructor
    · show (if s.historySize < (s.pitchHistory ++ [f]).length
          then (s.pitchHistory ++ [f]).tail else s.pitchHistory ++ [f]).length ≤ s.historySize
      by_cases hc : s.historySize < (s.pitchHistory ++ [f]).length
      · rw [if_pos hc]
        simp only [List.length_tail, List.length_append, List.length_singleton]
        omega
      · rw [if_neg hc]
        simp only [List.length_append, List.length_singleton] at hc ⊢
        omega
    · intro g hg
      have hsub : g ∈ s.pitchHistory ++ [f] := by
        revert hg
        show g ∈ (if s.historySize < (s.pitchHistory ++ [f]).length
            then (s.pitchHistory ++ [f]).tail else s.pitchHistory ++ [f]) →
            g ∈ s.pitchHistory ++ [f]
        split
        · exact fun hg => List.mem_of_mem_tail hg
        · exact fun hg => hg
      rcases List.mem_append.mp hsub with hold | hnew
      · exact hmem g hold
      · rw [List.mem_singleton] at hnew
        subst hnew
        exact acceptedRaw_range g hacc hf

end HistoryInvariant

section ClaimC7

/-- C7: from any state satisfying the history invariant, each of the
three operations preserves it (for `detectPitch` at a nonzero sample
rate, so the raw estimate cannot be `NaN`): the history length stays at
most `historySize`, every stored entry is a finite frequency in
`[60, 1000]`, and `reset` and `setSensitivity` leave the history empty;
moreover a rejected raw estimate leaves the history empty. -/
theorem tracker_invariant (s : PitchDetector.State) (buffer : List ℚ)
    (settings : PitchDetector.Settings) (hInv : HistoryInv s) (hsr : s.sampleRate ≠ 0) :
    HistoryInv (PitchDetector.detectPitch s buffer).1 ∧
    HistoryInv (PitchDetector.reset s) ∧ (PitchDetector.reset s).pitchHistory = [] ∧
    HistoryInv (PitchDetector.setSensitivity s settings) ∧
    (PitchDetector.setSensitivity s settings).pitchHistory = [] ∧
    (acceptedRaw (PitchDetector.autoCorrelate buffer s.sampleRate) = false →
      (PitchDetector.detectPitch s buffer).1.pitchHistory = []) := by
  have hsens : (PitchDetector.setSensitivity s settings).pitchHistory = [] := by
    obtain ⟨hso, pto⟩ := settings
    cases hso <;> cases pto <;> rfl
  refine ⟨?_, ?_, rfl, ?_, hsens, ?_⟩
  · exact histInv_step s _ (autoCorrelate_ne_nan buffer s.sampleRate hsr) hInv
  · exact ⟨Nat.zero_le _, by intro g hg; exact absurd hg (List.not_mem_nil g)⟩
  · refine ⟨?_, ?_⟩
    · rw [hsens]
      exact Nat.zero_le _
    · rw [hsens]
      intro g hg
      exact absurd hg (List.not_mem_nil g)
  · intro hrej
    rw [PitchDetector.detectPitch, detectPitchRaw_rejected s _ hrej]

/-- The invariant theorem applied at the freshly constructed detector
with a concrete buffer and a no-op settings object. -/
theorem tracker_invariant_witness :
    HistoryInv (PitchDetector.detectPitch (PitchDetector.init 48000) [1/2, 0, 1/2]).1 ∧
    HistoryInv (PitchDetector.reset (PitchDetector.init 48000)) :=
  ⟨(tracker_invariant (PitchDetector.init 48000) [1/2, 0, 1/2] ⟨none, none⟩
      ⟨Nat.zero_le 3, by intro g hg; exact absurd hg (List.not_mem_nil g)⟩
      (by norm_num [PitchDetector.init])).1,
   (tracker_invariant (PitchDetector.init 48000) [1/2, 0, 1/2] ⟨none, none⟩
      ⟨Nat.zero_le 3, by intro g hg; exact absurd hg (List.not_mem_nil g)⟩
      (by norm_num [PitchDetector.init])).2.1⟩

end ClaimC7

section MeanLemmas

/-- Folding JavaScript addition over finite values is rational addition. -/
theorem foldl_add_map_num (qs : List ℚ) (a : ℚ) :
    List.foldl JsNum.add (JsNum.num a) (List.map JsNum.num qs) = JsNum.num (a + qs.sum) := by
  induction qs generalizing a with
  | nil => simp
  | cons r rs ih =>
    simp only [List.map_cons, List.foldl_cons, JsNum.add]
    rw [ih (a + r), List.sum_cons]
    congr 1
    ring

/-- The history reduce on finite values computes the rational sum. -/
theorem reduceAdd_map_num (qs : List ℚ) (h : qs ≠ []) :
    JsNum.reduceAdd (List.map JsNum.num qs) = JsNum.num qs.sum := by
  match qs with
  | q :: rest =>
    simp only [List.map_cons, JsNum.reduceAdd]
    rw [foldl_add_map_num, List.sum_cons]

/-- Division of a finite value by a positive count is rational division. -/
theorem divNat_num (x : ℚ) (n : ℕ) (hn : 1 ≤ n) :
    JsNum.divNat (JsNum.num x) n = JsNum.num (x / n) := by
  rw [JsNum.divNat, JsNum.divQ, if_neg]
  exact Nat.cast_ne_zero.mpr (by omega)

/-- A common lower bound on every entry bounds the sum from below. -/
theorem mul_length_le_sum (l : List ℚ) (c : ℚ) (h : ∀ q ∈ l, c ≤ q) :
    c * l.length ≤ l.sum := by
  induction l with
  | nil => simp
  | cons x xs ih =>
    simp only [List.length_cons, List.sum_cons]
    have hx := h x (List.mem_cons_self x xs)
    have hxs := ih (fun q hq => h q (List.mem_cons_of_mem x hq))
    push_cast
    linarith

/-- A common upper bound on every entry bounds the sum from above. -/
theorem sum_le_mul_length (l : List ℚ) (c : ℚ) (h : ∀ q ∈ l, q ≤ c) :
    l.sum ≤ c * l.length := by
  induction l with
  | nil => simp
  | cons x xs ih =>
    simp only [List.length_cons, List.sum_cons]
    have hx := h x (List.mem_cons_self x xs)
    have hxs := ih (fun q hq => h q (List.mem_cons_of_mem x hq))
    push_cast
    linarith

/-- The `every` test over an image list, checked on the underlying
rationals. -/
theorem all_map_num (qs : List ℚ) (p : JsNum → Bool) :
    (List.map JsNum.num qs).all p = qs.all (fun q => p (JsNum.num q)) := by
  induction qs with
  | nil => rfl
  | cons q rest ih => simp [List.all_cons, ih]

/-- A list of in-range JavaScript numbers is the image of a list of
in-range rationals. -/
theorem exists_map_num (l : List JsNum)
    (h : ∀ g ∈ l, ∃ q : ℚ, g = JsNum.num q ∧ 60 ≤ q ∧ q ≤ 1000) :
    ∃ qs : List ℚ, l = List.map JsNum.num qs ∧ ∀ q ∈ qs, 60 ≤ q ∧ q ≤ 1000 := by
  induction l with
  | nil => exact ⟨[], rfl, by intro q hq; exact absurd hq (List.not_mem_nil q)⟩
  | cons g gs ih =>
    obtain ⟨q, rfl, hq1, hq2⟩ := h g (List.mem_cons_self g gs)
    obtain ⟨qs, rfl, hqs⟩ := ih (fun g' hg' => h g' (List.mem_cons_of_mem _ hg'))
    refine ⟨q :: qs, rfl, ?_⟩
    intro q' hq'
    rcases List.mem_cons.mp hq' with rfl | hq'
    · exact ⟨hq1, hq2⟩
    · exact hqs q' hq'

end MeanLemmas

section ClaimC9

/-- C9: from any invariant state with positive capacity and nonzero
sample rate, every non-null `detectPitch` return value is a finite
frequency in `[60, 1000]` (the mean of a full history of in-range
entries), in particular positive and never a sentinel such as `-1`. -/
theorem stabilized_output_in_range (s : PitchDetector.State) (buffer : List ℚ) (v : JsNum)
    (hInv : HistoryInv s) (hhs : 1 ≤ s.historySize) (hsr : s.sampleRate ≠ 0)
    (hout : (PitchDetector.detectPitch s buffer).2 = some v) :
    ∃ q : ℚ, v = JsNum.num q ∧ 60 ≤ q ∧ q ≤ 1000 ∧ 0 < q := by
  rw [PitchDetector.detectPitch] at hout
  have hne : (PitchDetector.detectPitchRaw s
      (PitchDetector.autoCorrelate buffer s.sampleRate)).2 ≠ none := by
    rw [hout]
    exact Option.some_ne_none v
  rcases detectPitchRaw_out_ne_none s _ hne with ⟨hacc, hge⟩
  have hInv' := histInv_step s (PitchDetector.autoCorrelate buffer s.sampleRate)
    (autoCorrelate_ne_nan buffer s.sampleRate hsr) hInv
  rw [detectPitchRaw_accepted_snd s _ hacc] at hout
  rw [detectPitchRaw_accepted_fst s _ hacc] at hInv' hge
  dsimp only at hout
  obtain ⟨hlen1, hmem1⟩ := hInv'
  set h1 := if s.historySize <
      (s.pitchHistory ++ [PitchDetector.autoCorrelate buffer s.sampleRate]).length
    then (s.pitchHistory ++ [PitchDetector.autoCorrelate buffer s.sampleRate]).tail
    else s.pitchHistory ++ [PitchDetector.autoCorrelate buffer s.sampleRate] with hh1
  have hlen : h1.length = s.historySize := le_antisymm hlen1 hge
  rw [if_neg (by omega)] at hout
  obtain ⟨qs, hqs, hrange⟩ := exists_map_num h1 hmem1
  have hqlen : qs.length = s.historySize := by
    rw [← hlen, hqs, List.length_map]
  have hqne : qs ≠ [] := by
    intro hq
    rw [hq] at hqlen
    simp at hqlen
    omega
  have havg : JsNum.divNat (JsNum.reduceAdd h1) s.historySize =
      JsNum.num (qs.sum / (s.historySize : ℚ)) := by
    rw [hqs, reduceAdd_map_num qs hqne, divNat_num _ _ hhs]
  rw [havg] at hout
  have hv : v = JsNum.num (qs.sum / (s.historySize : ℚ)) := by
    by_cases hall : (h1.all fun freq =>
        JsNum.lt (JsNum.abs (JsNum.sub freq (JsNum.num (qs.sum / (s.historySize : ℚ)))))
          (JsNum.num s.pitchTolerance)) = true
    · rw [if_pos hall] at hout
      exact (Option.some_inj.mp hout).symm
    · rw [if_neg hall] at hout
      exact absurd hout (Option.noConfusion)
  have hpos : (0 : ℚ) < (s.historySize : ℚ) := by
    exact_mod_cast Nat.lt_of_lt_of_le Nat.zero_lt_one hhs
  have hlow : (60 : ℚ) ≤ qs.sum / (s.historySize : ℚ) := by
    rw [le_div_iff₀ hpos]
    have := mul_length_le_sum qs 60 (fun q hq => (hrange q hq).1)
    rw [hqlen] at this
    linarith
  have hhigh : qs.sum / (s.historySize : ℚ) ≤ 1000 := by
    rw [div_le_iff₀ hpos]
    have := sum_le_mul_length qs 1000 (fun q hq => (hrange q hq).2)
    rw [hqlen] at this
    linarith
  exact ⟨qs.sum / (s.historySize : ℚ), hv, hlow, hhigh, by linarith⟩

end ClaimC9

section ClaimC9Witness

/-- The trimmed period-three test buffer. -/
theorem trimBuffer_period3 :
    trimBuffer [1/10, 1, -1, 1/10, 1, -1, 1/10] = [1/10, 1, -1, 1/10, 1, -1] := by
  norm_num [trimBuffer, clipLeft, clipRight, scanLeftAux, scanRightAux, abs_lt]

/-- The correlation array of the trimmed period-three test buffer. -/
theorem autocorrArray_period3 :
    autocorrArray [1/10, 1, -1, 1/10, 1, -1] =
      [201/50, -19/10, -11/10, 201/100, -9/10, -1/10] := by
  norm_num [autocorrArray, List.tails]

/-- On the period-three buffer at a 300 Hz sample rate the estimator
finds the period 3 (refined to 908/301) and reports about 99.45 Hz. -/
theorem autoCorrelate_period3 :
    PitchDetector.autoCorrelate [1/10, 1, -1, 1/10, 1, -1, 1/10] 300 =
      JsNum.num (22575/227) := by
  rw [PitchDetector.autoCorrelate, if_neg]
  · dsimp only
    rw [trimBuffer_period3, autocorrArray_period3]
    norm_num [valleySkip, peakSearch, peakAux, jsIndex, List.get?, JsNum.divQ,
      show Int.toNat 2 = 2 from by decide, show Int.toNat 3 = 3 from by decide,
      show Int.toNat 4 = 4 from by decide]
  · norm_num [sumSq]

/-- The in-range output claim applied concretely: with capacity 1 and
sample rate 300, the period-three buffer immediately yields a stabilized
in-range output. -/
theorem stabilized_output_in_range_witness :
    ∃ q : ℚ, JsNum.num (22575/227) = JsNum.num q ∧ 60 ≤ q ∧ q ≤ 1000 ∧ 0 < q := by
  refine stabilized_output_in_range ⟨300, [], 1, 15⟩ [1/10, 1, -1, 1/10, 1, -1, 1/10]
    (JsNum.num (22575/227))
    ⟨Nat.zero_le 1, by intro g hg; exact absurd hg (List.not_mem_nil g)⟩
    le_rfl (by norm_num) ?_
  show (PitchDetector.detectPitchRaw ⟨300, [], 1, 15⟩
    (PitchDetector.autoCorrelate [1/10, 1, -1, 1/10, 1, -1, 1/10] 300)).2 =
    some (JsNum.num (22575/227))
  rw [autoCorrelate_period3]
  norm_num [PitchDetector.detectPitchRaw, JsNum.lt, JsNum.sub, JsNum.abs,
    JsNum.divNat, JsNum.divQ, JsNum.reduceAdd]

end ClaimC9Witness

section ClaimC4

/-- C4: whenever an accepted estimate fills the history to exactly
`historySize` entries, `detectPitch` returns the arithmetic mean of the
entries when every entry differs from that mean by strictly less than
`pitchTolerance`, and `null` otherwise; in particular, at the default
configuration (`historySize = 3`, `pitchTolerance = 15`), the raw
estimates 220, 221, 219 yield the stabilized mean 220 while
220, 260, 219 yield `null`. -/
theorem mean_consistency_output (s : PitchDetector.State) (f : JsNum) (qs : List ℚ)
    (hhs : 1 ≤ s.historySize)
    (hh : (PitchDetector.detectPitchRaw s f).1.pitchHistory = List.map JsNum.num qs)
    (hlen : qs.length = s.historySize) :
    ((PitchDetector.detectPitchRaw s f).2 =
      if ∀ q ∈ qs, |q - qs.sum / (s.historySize : ℚ)| < s.pitchTolerance
      then some (JsNum.num (qs.sum / (s.historySize : ℚ))) else none) ∧
    (PitchDetector.detectPitchRaw
      (observeSeq (PitchDetector.init 48000) [JsNum.num 220, JsNum.num 221])
      (JsNum.num 219)).2 = some (JsNum.num 220) ∧
    (PitchDetector.detectPitchRaw
      (observeSeq (PitchDetector.init 48000) [JsNum.num 220, JsNum.num 260])
      (JsNum.num 219)).2 = none := by
  refine ⟨?_, ?_, ?_⟩
  · have hqne : qs ≠ [] := by
      intro hq
      rw [hq] at hlen
      simp at hlen
      omega
    cases hacc : acceptedRaw f with
    | false =>
      rw [detectPitchRaw_rejected s f hacc] at hh
      simp only at hh
      exact absurd hh.symm (by simpa using hqne)
    | true =>
      rw [detectPitchRaw_accepted_fst s f hacc] at hh
      simp only at hh
      rw [detectPitchRaw_accepted_snd s f hacc]
      dsimp only
      rw [hh, List.length_map, hlen]
      rw [if_neg (lt_irrefl s.historySize)]
      rw [reduceAdd_map_num qs hqne, divNat_num _ _ hhs]
      have hallEq : (((List.map JsNum.num qs).all (fun freq =>
          JsNum.lt (JsNum.abs (JsNum.sub freq (JsNum.num (qs.sum / (s.historySize : ℚ)))))
            (JsNum.num s.pitchTolerance))) = true) ↔
          (∀ q ∈ qs, |q - qs.sum / (s.historySize : ℚ)| < s.pitchTolerance) := by
        rw [all_map_num]
        rw [List.all_eq_true]
        constructor
        · intro hb q hq
          have hq' := hb q hq
          simpa [JsNum.sub, JsNum.abs, JsNum.lt] using hq'
        · intro hp q hq
          simpa [JsNum.sub, JsNum.abs, JsNum.lt] using hp q hq
      by_cases hcons : ∀ q ∈ qs, |q - qs.sum / (s.historySize : ℚ)| < s.pitchTolerance
      · rw [if_pos (hallEq.mpr hcons), if_pos hcons]
      · rw [if_neg (fun hb => hcons (hallEq.mp hb)), if_neg hcons]
  · norm_num [observeSeq, PitchDetector.init, PitchDetector.detectPitchRaw,
      JsNum.lt, JsNum.sub, JsNum.abs, JsNum.divNat, JsNum.divQ, JsNum.reduceAdd,
      JsNum.add, abs_lt]
  · norm_num [observeSeq, PitchDetector.init, PitchDetector.detectPitchRaw,
      JsNum.lt, JsNum.sub, JsNum.abs, JsNum.divNat, JsNum.divQ, JsNum.reduceAdd,
      JsNum.add, abs_lt]

/-- The mean/consistency rule applied concretely: a full history
`[220, 221, 219]` at the default configuration returns its mean 220. -/
theorem mean_consistency_output_witness :
    (PitchDetector.detectPitchRaw
      (⟨48000, [JsNum.num 220, JsNum.num 221], 3, 15⟩ : PitchDetector.State)
      (JsNum.num 219)).2 = some (JsNum.num 220) := by
  have happ := (mean_consistency_output
    (⟨48000, [JsNum.num 220, JsNum.num 221], 3, 15⟩ : PitchDetector.State)
    (JsNum.num 219) [220, 221, 219] (by norm_num) ?_ (by norm_num)).1
  · rw [happ, if_pos]
    · norm_num
    · intro q hq
      fin_cases hq <;> norm_num [abs_lt]
  · norm_num [PitchDetector.detectPitchRaw, JsNum.lt]

end ClaimC4
